import Mathlib

/-!
Shallow embedding of `src/dump/src/reader/v1/mod.rs` (the Meilisearch dump
v1 reader) together with proofs about its merge of per-index task logs.

File contents (documents.jsonl, settings.json, updates.jsonl, metadata.json)
are modelled as already-materialized data: a line of a newline-delimited
JSON file is represented by its deserialization outcome, since
`serde_json::from_str` receives only that single line's text.  A missing
file is `Option.none` (the only failure `File::open` / `fs::read` can hit
in this model).  Machine state that is mutated through `&mut self` in Rust
is passed explicitly.
-/

namespace DumpV1

/-- Modelled from the spec: `UpdateStatus` lives in `update.rs`, which is not
part of the sources; per §3 it is `{enqueued_at: timestamp, ...task-specific
fields}` and only `enqueued_at` (an `OffsetDateTime`, modelled as an integer
instant) is inspected by the reader.  The remaining task-specific fields are
collapsed into an opaque `payload`. -/
structure UpdateStatus where
  enqueued_at : Int
  payload : String
deriving DecidableEq

/-- One line of an `updates.jsonl` file, represented by what
`serde_json::from_str::<UpdateStatus>` would produce on that line's text:
either the task it deserializes to, or the serde error message for it.
The deserializer sees nothing but the line's own text. -/
inductive TaskLine where
  | ok (t : UpdateStatus)
  | bad (msg : String)
deriving DecidableEq

/-- `serde_json::from_str` on one task line (line 55 of the source). -/
def TaskLine.parse : TaskLine → Except String UpdateStatus
  | .ok t => .ok t
  | .bad m => .error m

/-- The task a line holds, if it deserializes. -/
def TaskLine.task? : TaskLine → Option UpdateStatus
  | .ok t => some t
  | .bad _ => none

/-- Modelled from the spec: `crate::Error` is not part of the sources.  The
constructors are the ones this file can produce: `Error::BadIndexName`
(line 79), the conversion of an `std::io::Error` through `?`, and the
conversion of a `serde_json::Error` through `?`.  A `?` conversion receives
only the source error value, so the serde constructor carries exactly the
single-line parse failure and nothing else. -/
inductive Error where
  | ioError (msg : String)
  | badIndexName
  | serdeJson (msg : String)
deriving DecidableEq

/-- `V1IndexReader` (lines 27-34): the three opened files plus the one
buffered task.  The `documents` and `settings` files are never parsed by
this reader (their accessors are `todo!()`), so they are kept as raw data;
`updates` holds the not-yet-consumed lines of the task log. -/
structure V1IndexReader where
  name : String
  documents : List String
  settings : String
  updates : List TaskLine
  current_update : Option UpdateStatus
deriving DecidableEq

/-- `V1IndexReader::next_update` (lines 50-61): read the next line of
`updates.jsonl`, parse it, and return the previously buffered task while
buffering the new one.  On a parse failure the `?` operator returns the
converted serde error before `mem::replace` runs, so the buffered task is
unchanged and the line has been consumed. -/
def V1IndexReader.next_update (r : V1IndexReader) :
    Except Error (Option UpdateStatus) × V1IndexReader :=
  match r.updates with
  | [] => (.ok r.current_update, { r with current_update := none })
  | line :: rest =>
    match line.parse with
    | .error m => (.error (.serdeJson m), { r with updates := rest })
    | .ok t =>
      (.ok r.current_update, { r with updates := rest, current_update := some t })

/-- Directory entry of the dump root as `fs::read_dir` yields it:
`file_name` is `none` when the OS file name is not valid UTF-8
(`OsStr::to_str` fails), and each per-index file is `none` when missing
(`File::open` fails). -/
structure DirEntry where
  file_name : Option String
  is_dir : Bool
  documents : Option (List String)
  settings : Option String
  updates : Option (List TaskLine)
deriving DecidableEq

/-- `V1IndexReader::new` (lines 37-48): open the three per-index files
(in source order: documents, settings, updates), then eagerly buffer the
first task.  The `Result` of the initial `next_update` call (line 45,
`ret.next_update();`) is discarded, so a parse failure on the first line is
swallowed and the cursor is simply left with no buffered task. -/
def V1IndexReader.new (name : String) (e : DirEntry) : Except Error V1IndexReader :=
  match e.documents, e.settings, e.updates with
  | some docs, some sett, some upd =>
    let ret : V1IndexReader :=
      { name := name, documents := docs, settings := sett, updates := upd,
        current_update := none }
    .ok ret.next_update.2
  | none, _, _ => .error (.ioError "documents.jsonl")
  | _, none, _ => .error (.ioError "settings.json")
  | _, _, none => .error (.ioError "updates.jsonl")

/-- Content of `metadata.json`: missing (`fs::read` fails), malformed
(`serde_json::from_reader` fails), or parsed.  Modelled from the spec:
`v1::Metadata` lives in `v1.rs`, not part of the sources; nothing in this
file inspects it, so its parsed form is kept opaque as a string. -/
inductive MetaFile where
  | missing
  | malformed (msg : String)
  | parses (meta : String)
deriving DecidableEq

/-- A dump root directory: the metadata file plus the entries of
`fs::read_dir` in directory-listing order. -/
structure Dump where
  metadata : MetaFile
  entries : List DirEntry
deriving DecidableEq

/-- `V1Reader` (lines 21-25).  The `TempDir` handle carries no data and is
dropped from the model. -/
structure V1Reader where
  metadata : String
  indexes : List V1IndexReader
deriving DecidableEq

/-- The `read_dir` loop of `V1Reader::open` (lines 71-84): skip non-
directories, fail with `BadIndexName` on a non-UTF-8 directory name, and
build one `V1IndexReader` per index directory, in listing order. -/
def openIndexes : List DirEntry → Except Error (List V1IndexReader)
  | [] => .ok []
  | e :: rest =>
    if e.is_dir then
      match e.file_name with
      | none => .error Error.badIndexName
      | some name =>
        match V1IndexReader.new name e with
        | .error err => .error err
        | .ok idx =>
          match openIndexes rest with
          | .error err => .error err
          | .ok more => .ok (idx :: more)
    else openIndexes rest

/-- `V1Reader::open` (lines 65-91): read and parse `metadata.json`, then
scan the dump root for index directories. -/
def V1Reader.openDump (dump : Dump) : Except Error V1Reader :=
  match dump.metadata with
  | .missing => .error (.ioError "metadata.json")
  | .malformed m => .error (.serdeJson m)
  | .parses meta =>
    match openIndexes dump.entries with
    | .error e => .error e
    | .ok indexes => .ok { metadata := meta, indexes := indexes }

/-- `.map(current_update).enumerate().filter_map(...)` (lines 100-103),
with `i` the running enumeration counter: the `(position, buffered task)`
pairs of the cursors that currently buffer a task. -/
def candidatesFrom (i : Nat) : List V1IndexReader → List (Nat × UpdateStatus)
  | [] => []
  | c :: cs =>
    match c.current_update with
    | some u => (i, u) :: candidatesFrom (i + 1) cs
    | none => candidatesFrom (i + 1) cs

/-- The candidate list of a whole reader (enumeration starts at 0). -/
def V1Reader.candidates (r : V1Reader) : List (Nat × UpdateStatus) :=
  candidatesFrom 0 r.indexes

/-- `Iterator::min_by_key` (line 104) keyed by `enqueued_at`: of several
equally-minimum elements the first is returned, so a later candidate
replaces the running best only when strictly smaller. -/
def minByKeyFirst : List (Nat × UpdateStatus) → Option (Nat × UpdateStatus)
  | [] => none
  | x :: xs =>
    some (xs.foldl
      (fun best c => if c.2.enqueued_at < best.2.enqueued_at then c else best) x)

/-- `V1Reader::next_update` (lines 97-110): select the cursor whose
buffered task has the smallest `enqueued_at` (first wins on ties) and
advance it; with no candidate, yield `Ok(None)`.  The selected position
always indexes `self.indexes`, so the `none` fallback of the lookup is
unreachable. -/
def V1Reader.next_update (r : V1Reader) :
    Except Error (Option UpdateStatus) × V1Reader :=
  match minByKeyFirst r.candidates with
  | some (idx, _) =>
    match r.indexes[idx]? with
    | some c =>
      (c.next_update.1, { r with indexes := r.indexes.set idx c.next_update.2 })
    | none => (.ok none, r)
  | none => (.ok none, r)

/-- Pull the merged stream `n` times, keeping only the evolving state. -/
def V1Reader.pulls : Nat → V1Reader → V1Reader
  | 0, r => r
  | n + 1, r => V1Reader.pulls n r.next_update.2

/-- An upper bound on the number of successful pulls the merged stream can
still deliver: one per unread log line plus one per buffered task. -/
def V1IndexReader.weight (c : V1IndexReader) : Nat :=
  c.updates.length + (if c.current_update.isSome then 1 else 0)

/-- Total weight of a reader's cursors. -/
def V1Reader.measure (r : V1Reader) : Nat :=
  (r.indexes.map V1IndexReader.weight).sum

/-- Consuming the `tasks()` stream (lines 164-172) with `fuel` pulls
available: the yielded tasks in order, and the error that stopped the
stream, if one did.  `Ok(None)` ends the stream; the consumer stops at the
first `Err` since the failing cursor is in an undefined state thereafter. -/
def tasksAux : Nat → V1Reader → List UpdateStatus × Option Error
  | 0, _ => ([], none)
  | fuel + 1, r =>
    match r.next_update with
    | (.ok none, _) => ([], none)
    | (.ok (some t), r2) => (t :: (tasksAux fuel r2).1, (tasksAux fuel r2).2)
    | (.error e, _) => ([], some e)

/-- The full output of `tasks()` (lines 164-172): every yielded task paired
with the always-absent update file (`(task, None)`, line 170), plus the
stopping error if any.  `measure + 1` pulls always reach the end of the
stream (`tasksAux_stable` below shows the fuel choice is immaterial). -/
def V1Reader.tasksList (r : V1Reader) :
    List (UpdateStatus × Option Unit) × Option Error :=
  let (ts, e) := tasksAux (r.measure + 1) r
  (ts.map (fun t => (t, (none : Option Unit))), e)

/-- `DumpReader::indexes` for `V1Reader` (lines 147-162): an iterator over
`self.indexes`, one handle per discovered index directory. -/
def V1Reader.indexesList (r : V1Reader) : List V1IndexReader :=
  r.indexes

/-- `IndexReader for &V1IndexReader::documents` (lines 121-123) is
`todo!()`: every call panics before producing anything.  A call that panics
instead of returning is modelled as `none`. -/
def V1IndexReader.documentsResult (_ : V1IndexReader) :
    Option (Except Error (List String)) :=
  none

/-- `IndexReader for &V1IndexReader::settings` (lines 125-127) is
`todo!()`: every call panics before producing anything.  A call that panics
instead of returning is modelled as `none`. -/
def V1IndexReader.settingsResult (_ : V1IndexReader) :
    Option (Except Error String) :=
  none

/-- The tasks a task log deserializes to, in file order. -/
def logTasks (l : List TaskLine) : List UpdateStatus :=
  l.filterMap TaskLine.task?

/-- Non-decreasing `enqueued_at` over a task list, as a pairwise bound. -/
def sortedLe (l : List UpdateStatus) : Prop :=
  List.Pairwise (fun a b => a.enqueued_at ≤ b.enqueued_at) l

/-- Invariant of a live cursor: the unread tasks are sorted and the
buffered task (if any) is at most every unread task. -/
def cursorWF (c : V1IndexReader) : Prop :=
  sortedLe (logTasks c.updates) ∧
  ∀ u, c.current_update = some u →
    ∀ v ∈ logTasks c.updates, u.enqueued_at ≤ v.enqueued_at

/-! ### Candidate-list lemmas -/

theorem candidatesFrom_cons_none {c : V1IndexReader} {cs : List V1IndexReader}
    {k : Nat} (h : c.current_update = none) :
    candidatesFrom k (c :: cs) = candidatesFrom (k + 1) cs := by
  simp only [candidatesFrom, h]

theorem candidatesFrom_cons_some {c : V1IndexReader} {cs : List V1IndexReader}
    {k : Nat} {u : UpdateStatus} (h : c.current_update = some u) :
    candidatesFrom k (c :: cs) = (k, u) :: candidatesFrom (k + 1) cs := by
  simp only [candidatesFrom, h]

theorem candidatesFrom_append (k : Nat) (l1 l2 : List V1IndexReader) :
    candidatesFrom k (l1 ++ l2) =
      candidatesFrom k l1 ++ candidatesFrom (k + l1.length) l2 := by
  induction l1 generalizing k with
  | nil => simp [candidatesFrom]
  | cons c cs ih =>
    have hlen : (c :: cs).length = cs.length + 1 := rfl
    have harith : k + 1 + cs.length = k + (cs.length + 1) := by omega
    cases hcu : c.current_update with
    | none =>
      rw [List.cons_append, candidatesFrom_cons_none hcu,
        candidatesFrom_cons_none hcu, ih, hlen, harith]
    | some u =>
      rw [List.cons_append, candidatesFrom_cons_some hcu,
        candidatesFrom_cons_some hcu, ih, hlen, harith, List.cons_append]

theorem mem_candidatesFrom {k j : Nat} {v : UpdateStatus} {l : List V1IndexReader}
    (h : (j, v) ∈ candidatesFrom k l) :
    ∃ c, k ≤ j ∧ l[j - k]? = some c ∧ c.current_update = some v := by
  induction l generalizing k with
  | nil => simp [candidatesFrom] at h
  | cons c cs ih =>
    cases hcu : c.current_update with
    | none =>
      rw [candidatesFrom_cons_none hcu] at h
      obtain ⟨c', hk, hg, hv⟩ := ih h
      refine ⟨c', by omega, ?_, hv⟩
      have harith : j - k = (j - (k + 1)) + 1 := by omega
      rw [harith]
      simpa using hg
    | some u =>
      rw [candidatesFrom_cons_some hcu] at h
      rcases List.mem_cons.mp h with heq | htail
      · have hj : j = k := congrArg Prod.fst heq
        have hv : v = u := congrArg Prod.snd heq
        refine ⟨c, by omega, ?_, by rw [hcu, hv]⟩
        have harith : j - k = 0 := by omega
        rw [harith]
        simp
      · obtain ⟨c', hk, hg, hv⟩ := ih htail
        refine ⟨c', by omega, ?_, hv⟩
        have harith : j - k = (j - (k + 1)) + 1 := by omega
        rw [harith]
        simpa using hg

theorem mem_candidatesFrom_cursor {k j : Nat} {v : UpdateStatus}
    {l : List V1IndexReader} (h : (j, v) ∈ candidatesFrom k l) :
    ∃ c ∈ l, c.current_update = some v := by
  obtain ⟨c, _, hg, hv⟩ := mem_candidatesFrom h
  exact ⟨c, List.mem_iff_getElem?.mpr ⟨j - k, hg⟩, hv⟩

theorem getElem_candidatesFrom {j k : Nat} {c : V1IndexReader} {u : UpdateStatus}
    {l : List V1IndexReader} (hg : l[j]? = some c)
    (hc : c.current_update = some u) :
    (k + j, u) ∈ candidatesFrom k l := by
  induction l generalizing j k with
  | nil => simp at hg
  | cons x xs ih =>
    cases j with
    | zero =>
      simp at hg
      subst hg
      rw [candidatesFrom_cons_some hc]
      simp
    | succ n =>
      simp at hg
      have hmem := ih (k := k + 1) hg
      have harith : k + (n + 1) = (k + 1) + n := by omega
      rw [harith]
      cases hcu : x.current_update with
      | none => rw [candidatesFrom_cons_none hcu]; exact hmem
      | some w => rw [candidatesFrom_cons_some hcu]; exact List.mem_cons_of_mem _ hmem

theorem candidatesFrom_eq_nil {l : List V1IndexReader} {k : Nat}
    (h : ∀ c ∈ l, c.current_update = none) : candidatesFrom k l = [] := by
  induction l generalizing k with
  | nil => rfl
  | cons c cs ih =>
    rw [candidatesFrom_cons_none (h c (List.mem_cons_self c cs))]
    exact ih fun c' hc' => h c' (List.mem_cons_of_mem _ hc')

/-! ### `min_by_key` lemmas -/

/-- The fold step of `minByKeyFirst`. -/
def minStep (best c : Nat × UpdateStatus) : Nat × UpdateStatus :=
  if c.2.enqueued_at < best.2.enqueued_at then c else best

theorem minByKeyFirst_eq_foldl (x : Nat × UpdateStatus) (xs : List (Nat × UpdateStatus)) :
    minByKeyFirst (x :: xs) = some (xs.foldl minStep x) := rfl

theorem foldl_minStep_mem (xs : List (Nat × UpdateStatus)) (x : Nat × UpdateStatus) :
    xs.foldl minStep x = x ∨ xs.foldl minStep x ∈ xs := by
  induction xs generalizing x with
  | nil => exact Or.inl rfl
  | cons y ys ih =>
    rcases ih (minStep x y) with h | h
    · rw [List.foldl_cons, h]
      unfold minStep
      split
      · exact Or.inr (List.mem_cons_self _ _)
      · exact Or.inl rfl
    · exact Or.inr (List.mem_cons_of_mem _ (by rw [List.foldl_cons]; exact h))

theorem foldl_minStep_le (xs : List (Nat × UpdateStatus)) (x : Nat × UpdateStatus) :
    (xs.foldl minStep x).2.enqueued_at ≤ x.2.enqueued_at ∧
      ∀ y ∈ xs, (xs.foldl minStep x).2.enqueued_at ≤ y.2.enqueued_at := by
  induction xs generalizing x with
  | nil => exact ⟨le_refl _, by simp⟩
  | cons y ys ih =>
    obtain ⟨h1, h2⟩ := ih (minStep x y)
    have hxy : (minStep x y).2.enqueued_at ≤ x.2.enqueued_at ∧
        (minStep x y).2.enqueued_at ≤ y.2.enqueued_at := by
      unfold minStep
      split
      · constructor
        · exact le_of_lt (by assumption)
        · exact le_refl _
      · exact ⟨le_refl _, le_of_not_lt (by assumption)⟩
    refine ⟨le_trans (by rw [List.foldl_cons]; exact h1) hxy.1, ?_⟩
    intro z hz
    rcases List.mem_cons.mp hz with hz | hz
    · subst hz
      exact le_trans (by rw [List.foldl_cons]; exact h1) hxy.2
    · rw [List.foldl_cons]
      exact h2 z hz

theorem minByKeyFirst_mem {l : List (Nat × UpdateStatus)} {x : Nat × UpdateStatus}
    (h : minByKeyFirst l = some x) : x ∈ l := by
  cases l with
  | nil => simp [minByKeyFirst] at h
  | cons y ys =>
    rw [minByKeyFirst_eq_foldl] at h
    have := Option.some.inj h
    rcases foldl_minStep_mem ys y with h2 | h2
    · rw [← this, h2]; exact List.mem_cons_self _ _
    · rw [← this]; exact List.mem_cons_of_mem _ h2

theorem minByKeyFirst_le {l : List (Nat × UpdateStatus)} {x : Nat × UpdateStatus}
    (h : minByKeyFirst l = some x) :
    ∀ y ∈ l, x.2.enqueued_at ≤ y.2.enqueued_at := by
  cases l with
  | nil => simp [minByKeyFirst] at h
  | cons z zs =>
    rw [minByKeyFirst_eq_foldl] at h
    have hx := Option.some.inj h
    intro y hy
    obtain ⟨h1, h2⟩ := foldl_minStep_le zs z
    rcases List.mem_cons.mp hy with hy | hy
    · rw [← hx, hy]; exact h1
    · rw [← hx]; exact h2 y hy

theorem foldl_minStep_id {x : Nat × UpdateStatus} {xs : List (Nat × UpdateStatus)}
    (h : ∀ y ∈ xs, x.2.enqueued_at ≤ y.2.enqueued_at) :
    xs.foldl minStep x = x := by
  induction xs with
  | nil => rfl
  | cons y ys ih =>
    rw [List.foldl_cons]
    have hstep : minStep x y = x := by
      unfold minStep
      rw [if_neg (not_lt_of_le (h y (List.mem_cons_self _ _)))]
    rw [hstep]
    exact ih fun z hz => h z (List.mem_cons_of_mem _ hz)

theorem foldl_minStep_first {l1 : List (Nat × UpdateStatus)}
    {x : Nat × UpdateStatus} {l2 : List (Nat × UpdateStatus)} :
    ∀ {a : Nat × UpdateStatus}, x.2.enqueued_at < a.2.enqueued_at →
    (∀ y ∈ l1, x.2.enqueued_at < y.2.enqueued_at) →
    (∀ y ∈ l2, x.2.enqueued_at ≤ y.2.enqueued_at) →
    (l1 ++ x :: l2).foldl minStep a = x := by
  induction l1 with
  | nil =>
    intro a ha _ h2
    rw [List.nil_append, List.foldl_cons]
    have hstep : minStep a x = x := by
      unfold minStep
      rw [if_pos ha]
    rw [hstep]
    exact foldl_minStep_id h2
  | cons b l1' ih =>
    intro a ha h1 h2
    rw [List.cons_append, List.foldl_cons]
    have hb : x.2.enqueued_at < b.2.enqueued_at := h1 b (List.mem_cons_self _ _)
    have hstep : x.2.enqueued_at < (minStep a b).2.enqueued_at := by
      unfold minStep
      split
      · exact hb
      · exact ha
    exact ih hstep (fun y hy => h1 y (List.mem_cons_of_mem _ hy)) h2

theorem minByKeyFirst_first {l1 : List (Nat × UpdateStatus)}
    {x : Nat × UpdateStatus} {l2 : List (Nat × UpdateStatus)}
    (h1 : ∀ y ∈ l1, x.2.enqueued_at < y.2.enqueued_at)
    (h2 : ∀ y ∈ l2, x.2.enqueued_at ≤ y.2.enqueued_at) :
    minByKeyFirst (l1 ++ x :: l2) = some x := by
  cases l1 with
  | nil =>
    rw [List.nil_append, minByKeyFirst_eq_foldl, foldl_minStep_id h2]
  | cons a l1' =>
    rw [List.cons_append, minByKeyFirst_eq_foldl]
    rw [foldl_minStep_first (h1 a (List.mem_cons_self _ _))
      (fun y hy => h1 y (List.mem_cons_of_mem _ hy)) h2]

/-! ### Positional list helpers -/

theorem getElem?_append_cons (pre : List V1IndexReader) (c : V1IndexReader)
    (post : List V1IndexReader) : (pre ++ c :: post)[pre.length]? = some c := by
  induction pre with
  | nil => simp
  | cons x xs ih => simpa using ih

theorem set_append_cons (pre : List V1IndexReader) (c b : V1IndexReader)
    (post : List V1IndexReader) :
    (pre ++ c :: post).set pre.length b = pre ++ b :: post := by
  induction pre with
  | nil => rfl
  | cons x xs ih =>
    show x :: ((xs ++ c :: post).set xs.length b) = x :: (xs ++ b :: post)
    rw [ih]

/-! ### One step of the per-index cursor -/

theorem index_next_update_nil {c : V1IndexReader} (h : c.updates = []) :
    c.next_update = (.ok c.current_update, { c with current_update := none }) := by
  simp only [V1IndexReader.next_update, h]

theorem index_next_update_ok {c : V1IndexReader} {t : UpdateStatus}
    {rest : List TaskLine} (h : c.updates = TaskLine.ok t :: rest) :
    c.next_update =
      (.ok c.current_update,
        { c with updates := rest, current_update := some t }) := by
  simp only [V1IndexReader.next_update, h, TaskLine.parse]

theorem index_next_update_bad {c : V1IndexReader} {m : String}
    {rest : List TaskLine} (h : c.updates = TaskLine.bad m :: rest) :
    c.next_update = (.error (.serdeJson m), { c with updates := rest }) := by
  simp only [V1IndexReader.next_update, h, TaskLine.parse]

theorem next_update_ok_fst {c : V1IndexReader} {o : Option UpdateStatus}
    (h : c.next_update.1 = .ok o) : o = c.current_update := by
  cases hu : c.updates with
  | nil =>
    rw [index_next_update_nil hu] at h
    exact (Except.ok.inj h).symm
  | cons line rest =>
    cases line with
    | ok t =>
      rw [index_next_update_ok hu] at h
      exact (Except.ok.inj h).symm
    | bad m =>
      rw [index_next_update_bad hu] at h
      exact absurd h (by simp)

/-! ### One step of the merge -/

theorem next_update_split {r : V1Reader} {pre post : List V1IndexReader}
    {c : V1IndexReader} {u : UpdateStatus}
    (hsplit : r.indexes = pre ++ c :: post)
    (hcur : c.current_update = some u)
    (hpre : ∀ c' ∈ pre, ∀ v, c'.current_update = some v →
      u.enqueued_at < v.enqueued_at)
    (hpost : ∀ c' ∈ post, ∀ v, c'.current_update = some v →
      u.enqueued_at ≤ v.enqueued_at) :
    r.next_update =
      (c.next_update.1, { r with indexes := pre ++ c.next_update.2 :: post }) := by
  have hcand : r.candidates =
      candidatesFrom 0 pre ++
        (pre.length, u) :: candidatesFrom (pre.length + 1) post := by
    rw [V1Reader.candidates, hsplit, candidatesFrom_append,
      candidatesFrom_cons_some hcur]
    norm_num
  have hmin : minByKeyFirst r.candidates = some (pre.length, u) := by
    rw [hcand]
    apply minByKeyFirst_first
    · intro y hy
      obtain ⟨j, v⟩ := y
      obtain ⟨c', hc', hv⟩ := mem_candidatesFrom_cursor hy
      exact hpre c' hc' v hv
    · intro y hy
      obtain ⟨j, v⟩ := y
      obtain ⟨c', hc', hv⟩ := mem_candidatesFrom_cursor hy
      exact hpost c' hc' v hv
  have hget : r.indexes[pre.length]? = some c := by
    rw [hsplit]
    exact getElem?_append_cons pre c post
  simp only [V1Reader.next_update, hmin, hget]
  rw [hsplit, set_append_cons]

theorem next_update_ok_some {r : V1Reader} {t : UpdateStatus} {r2 : V1Reader}
    (h : r.next_update = (.ok (some t), r2)) :
    ∃ idx c, minByKeyFirst r.candidates = some (idx, t) ∧
      r.indexes[idx]? = some c ∧ c.current_update = some t ∧
      c.next_update.1 = .ok (some t) ∧
      r2 = { r with indexes := r.indexes.set idx c.next_update.2 } := by
  cases hm : minByKeyFirst r.candidates with
  | none => simp [V1Reader.next_update, hm] at h
  | some p =>
    obtain ⟨idx, u⟩ := p
    cases hg : r.indexes[idx]? with
    | none => simp [V1Reader.next_update, hm, hg] at h
    | some c =>
      have hne : r.next_update =
          (c.next_update.1,
            { r with indexes := r.indexes.set idx c.next_update.2 }) := by
        simp only [V1Reader.next_update, hm, hg]
      rw [hne] at h
      have hfst : c.next_update.1 = .ok (some t) := congrArg Prod.fst h
      have hsnd : r2 = { r with indexes := r.indexes.set idx c.next_update.2 } :=
        (congrArg Prod.snd h).symm
      have hcur : c.current_update = some t := (next_update_ok_fst hfst).symm
      have hut : u = t := by
        obtain ⟨c', _, hg', hv'⟩ := mem_candidatesFrom (minByKeyFirst_mem hm)
        have hc' : c' = c := by
          rw [Nat.sub_zero] at hg'
          exact Option.some.inj (hg'.symm.trans hg)
        rw [hc', hcur] at hv'
        exact (Option.some.inj hv').symm
      exact ⟨idx, c, by rw [hut], hg, hcur, hfst, hsnd⟩

/-! ### Termination measure -/

theorem weight_decrease {c : V1IndexReader} {t : UpdateStatus}
    (h : c.next_update.1 = .ok (some t)) :
    c.next_update.2.weight < c.weight := by
  have hcur : some t = c.current_update := next_update_ok_fst h
  cases hu : c.updates with
  | nil =>
    rw [index_next_update_nil hu]
    simp [V1IndexReader.weight, hu, ← hcur]
  | cons line rest =>
    cases line with
    | ok t' =>
      rw [index_next_update_ok hu]
      simp [V1IndexReader.weight, hu, ← hcur]
    | bad m =>
      rw [index_next_update_bad hu] at h
      exact absurd h (by simp)

theorem sum_weights_set_lt {l : List V1IndexReader} {i : Nat}
    {c c2 : V1IndexReader} (hg : l[i]? = some c) (hw : c2.weight < c.weight) :
    ((l.set i c2).map V1IndexReader.weight).sum <
      (l.map V1IndexReader.weight).sum := by
  induction l generalizing i with
  | nil => simp at hg
  | cons x xs ih =>
    cases i with
    | zero =>
      simp at hg
      subst hg
      simp only [List.set_cons_zero, List.map_cons, List.sum_cons]
      omega
    | succ n =>
      simp at hg
      have hlt := ih hg
      simp only [List.set_cons_succ, List.map_cons, List.sum_cons]
      omega

theorem measure_decrease {r r2 : V1Reader} {t : UpdateStatus}
    (h : r.next_update = (.ok (some t), r2)) : r2.measure < r.measure := by
  obtain ⟨idx, c, _, hg, _, hfst, hr2⟩ := next_update_ok_some h
  rw [hr2]
  exact sum_weights_set_lt hg (weight_decrease hfst)

/-! ### Preservation of the cursor invariant -/

theorem cursorWF_next {c : V1IndexReader} (hwf : cursorWF c) {t : UpdateStatus}
    (h : c.next_update.1 = .ok (some t)) :
    cursorWF c.next_update.2 ∧
      ∀ u, c.next_update.2.current_update = some u →
        t.enqueued_at ≤ u.enqueued_at := by
  have hcur : some t = c.current_update := next_update_ok_fst h
  obtain ⟨hsort, hbound⟩ := hwf
  cases hu : c.updates with
  | nil =>
    rw [index_next_update_nil hu]
    refine ⟨⟨hsort, ?_⟩, ?_⟩
    · intro u hu2
      exact absurd hu2 (by simp)
    · intro u hu2
      exact absurd hu2 (by simp)
  | cons line rest =>
    cases line with
    | bad m =>
      rw [index_next_update_bad hu] at h
      exact absurd h (by simp)
    | ok t' =>
      rw [index_next_update_ok hu]
      have hlog : logTasks c.updates = t' :: logTasks rest := by
        rw [hu]
        rfl
      rw [sortedLe, hlog] at hsort
      rw [hlog] at hbound
      have hpair := List.pairwise_cons.mp hsort
      refine ⟨⟨hpair.2, ?_⟩, ?_⟩
      · intro u hu2 v hv
        have hut : t' = u := Option.some.inj hu2
        rw [← hut]
        exact hpair.1 v hv
      · intro u hu2
        have hut : t' = u := Option.some.inj hu2
        rw [← hut]
        exact hbound t hcur.symm t' (List.mem_cons_self _ _)

theorem step_invariants {r r2 : V1Reader} {t : UpdateStatus}
    (h : r.next_update = (.ok (some t), r2))
    (hwf : ∀ c ∈ r.indexes, cursorWF c) :
    (∀ c ∈ r2.indexes, cursorWF c) ∧
      ∀ c ∈ r2.indexes, ∀ u, c.current_update = some u →
        t.enqueued_at ≤ u.enqueued_at := by
  obtain ⟨idx, c, hm, hg, hcur, hfst, hr2⟩ := next_update_ok_some h
  have hc_mem : c ∈ r.indexes := List.mem_iff_getElem?.mpr ⟨idx, hg⟩
  obtain ⟨hwf2, hbound2⟩ := cursorWF_next (hwf c hc_mem) hfst
  have hmin := minByKeyFirst_le hm
  constructor
  · intro c' hc'
    rw [hr2] at hc'
    rcases List.mem_or_eq_of_mem_set hc' with hold | heq
    · exact hwf c' hold
    · rw [heq]
      exact hwf2
  · intro c' hc' u hu
    rw [hr2] at hc'
    rcases List.mem_or_eq_of_mem_set hc' with hold | heq
    · obtain ⟨j, hj⟩ := List.mem_iff_getElem?.mp hold
      exact hmin (0 + j, u) (getElem_candidatesFrom hj hu)
    · rw [heq] at hu
      exact hbound2 u hu

/-! ### Unfolding the stream one pull at a time -/

theorem tasksAux_succ_ok_none {fuel : Nat} {r r2 : V1Reader}
    (h : r.next_update = (.ok none, r2)) : tasksAux (fuel + 1) r = ([], none) := by
  rw [tasksAux, h]

theorem tasksAux_succ_ok_some {fuel : Nat} {r r2 : V1Reader} {t : UpdateStatus}
    (h : r.next_update = (.ok (some t), r2)) :
    tasksAux (fuel + 1) r = (t :: (tasksAux fuel r2).1, (tasksAux fuel r2).2) := by
  rw [tasksAux, h]

theorem tasksAux_succ_error {fuel : Nat} {r r2 : V1Reader} {e : Error}
    (h : r.next_update = (.error e, r2)) :
    tasksAux (fuel + 1) r = ([], some e) := by
  rw [tasksAux, h]

/-! ### The merged stream is non-decreasing -/

theorem tasksAux_lower_bound (fuel : Nat) (r : V1Reader)
    (hwf : ∀ c ∈ r.indexes, cursorWF c) (lb : Int)
    (hlb : ∀ c ∈ r.indexes, ∀ u, c.current_update = some u →
      lb ≤ u.enqueued_at) :
    ∀ t ∈ (tasksAux fuel r).1, lb ≤ t.enqueued_at := by
  induction fuel generalizing r lb with
  | zero => simp [tasksAux]
  | succ n ih =>
    cases hstep : r.next_update with
    | mk res r2 =>
      cases res with
      | error e => simp [tasksAux_succ_error hstep]
      | ok o =>
        cases o with
        | none => simp [tasksAux_succ_ok_none hstep]
        | some t =>
          obtain ⟨hwf2, hbound2⟩ := step_invariants hstep hwf
          have hlbt : lb ≤ t.enqueued_at := by
            obtain ⟨idx, c, _, hg, hcur, _, _⟩ := next_update_ok_some hstep
            exact hlb c (List.mem_iff_getElem?.mpr ⟨idx, hg⟩) t hcur
          intro x hx
          rw [tasksAux_succ_ok_some hstep] at hx
          simp only [] at hx
          rcases List.mem_cons.mp hx with hxt | hxs
          · rw [hxt]
            exact hlbt
          · exact ih r2 hwf2 lb
              (fun c hc u hu => le_trans hlbt (hbound2 c hc u hu)) x hxs

theorem tasksAux_pairwise (fuel : Nat) (r : V1Reader)
    (hwf : ∀ c ∈ r.indexes, cursorWF c) :
    List.Pairwise (fun a b => a.enqueued_at ≤ b.enqueued_at)
      (tasksAux fuel r).1 := by
  induction fuel generalizing r with
  | zero => simp [tasksAux]
  | succ n ih =>
    cases hstep : r.next_update with
    | mk res r2 =>
      cases res with
      | error e => simp [tasksAux_succ_error hstep]
      | ok o =>
        cases o with
        | none => simp [tasksAux_succ_ok_none hstep]
        | some t =>
          obtain ⟨hwf2, hbound2⟩ := step_invariants hstep hwf
          rw [tasksAux_succ_ok_some hstep]
          rw [List.pairwise_cons]
          exact ⟨tasksAux_lower_bound n r2 hwf2 t.enqueued_at hbound2, ih r2 hwf2⟩

/-! ### The fuel bound of `tasksList` is immaterial -/

theorem tasksAux_stable (fuel : Nat) (r : V1Reader) (h : r.measure < fuel) :
    tasksAux (fuel + 1) r = tasksAux fuel r := by
  induction fuel generalizing r with
  | zero => exact absurd h (Nat.not_lt_zero _)
  | succ n ih =>
    cases hstep : r.next_update with
    | mk res r2 =>
      cases res with
      | error e => rw [tasksAux_succ_error hstep, tasksAux_succ_error hstep]
      | ok o =>
        cases o with
        | none => rw [tasksAux_succ_ok_none hstep, tasksAux_succ_ok_none hstep]
        | some t =>
          have hm := measure_decrease hstep
          rw [tasksAux_succ_ok_some hstep, tasksAux_succ_ok_some hstep,
            ih r2 (by omega)]

theorem tasksAux_fuel_irrelevant (fuel : Nat) (r : V1Reader)
    (h : r.measure < fuel) : tasksAux fuel r = tasksAux (r.measure + 1) r := by
  induction fuel with
  | zero => exact absurd h (Nat.not_lt_zero _)
  | succ n ih =>
    rcases Nat.lt_or_ge r.measure n with hlt | hge
    · rw [tasksAux_stable n r hlt]
      exact ih hlt
    · have hn : n = r.measure := by omega
      rw [hn]

/-! ### Decidability of the sortedness hypothesis -/

instance : DecidableRel (fun a b : UpdateStatus => a.enqueued_at ≤ b.enqueued_at) :=
  fun a b => inferInstanceAs (Decidable (a.enqueued_at ≤ b.enqueued_at))

instance (l : List UpdateStatus) : Decidable (sortedLe l) :=
  inferInstanceAs
    (Decidable (List.Pairwise (fun a b : UpdateStatus => a.enqueued_at ≤ b.enqueued_at) l))

/-! ### Shape of a freshly opened reader -/

theorem tasksList_eq (r : V1Reader) :
    r.tasksList =
      ((tasksAux (r.measure + 1) r).1.map (fun t => (t, (none : Option Unit))),
        (tasksAux (r.measure + 1) r).2) := rfl

/-- The cursor `V1IndexReader::new` produces once its three files are open:
the fresh record of line 38-44 after the initial (result-discarded) buffer
fill of line 45. -/
def freshCursor (name : String) (docs : List String) (sett : String)
    (upd : List TaskLine) : V1IndexReader :=
  ({ name := name, documents := docs, settings := sett, updates := upd,
     current_update := none } : V1IndexReader).next_update.2

theorem new_ok_shape {name : String} {e : DirEntry} {c : V1IndexReader}
    (h : V1IndexReader.new name e = .ok c) :
    ∃ docs sett upd, e.documents = some docs ∧ e.settings = some sett ∧
      e.updates = some upd ∧ c = freshCursor name docs sett upd := by
  cases hd : e.documents with
  | none =>
    simp only [V1IndexReader.new, hd] at h
    exact absurd h (by simp)
  | some docs =>
    cases hs : e.settings with
    | none =>
      simp only [V1IndexReader.new, hd, hs] at h
      exact absurd h (by simp)
    | some sett =>
      cases hu : e.updates with
      | none =>
        simp only [V1IndexReader.new, hd, hs, hu] at h
        exact absurd h (by simp)
      | some upd =>
        simp only [V1IndexReader.new, hd, hs, hu] at h
        exact ⟨docs, sett, upd, rfl, rfl, rfl, (Except.ok.inj h).symm⟩

theorem new_current_update (name : String) (docs : List String) (sett : String)
    (upd : List TaskLine) :
    (freshCursor name docs sett upd).current_update =
      upd.head?.bind TaskLine.task? := by
  cases upd with
  | nil => rfl
  | cons line rest =>
    cases line with
    | ok t => rfl
    | bad m => rfl

theorem new_cursorWF {name : String} {docs : List String} {sett : String}
    {upd : List TaskLine} (hsort : sortedLe (logTasks upd)) :
    cursorWF (freshCursor name docs sett upd) := by
  cases upd with
  | nil =>
    refine ⟨?_, ?_⟩
    · exact List.Pairwise.nil
    · intro u hu
      exact Option.noConfusion hu
  | cons line rest =>
    cases line with
    | ok t =>
      have hlog : logTasks (TaskLine.ok t :: rest) = t :: logTasks rest := rfl
      rw [sortedLe, hlog] at hsort
      have hpair := List.pairwise_cons.mp hsort
      refine ⟨hpair.2, ?_⟩
      · intro u hu v hv
        have hut : t = u := Option.some.inj hu
        rw [← hut]
        exact hpair.1 v hv
    | bad m =>
      have hlog : logTasks (TaskLine.bad m :: rest) = logTasks rest := rfl
      rw [sortedLe, hlog] at hsort
      refine ⟨hsort, ?_⟩
      · intro u hu
        exact Option.noConfusion hu

theorem openDump_ok_indexes {dump : Dump} {r : V1Reader}
    (h : V1Reader.openDump dump = .ok r) :
    openIndexes dump.entries = .ok r.indexes := by
  cases hm : dump.metadata with
  | missing =>
    simp only [V1Reader.openDump, hm] at h
    exact absurd h (by simp)
  | malformed m =>
    simp only [V1Reader.openDump, hm] at h
    exact absurd h (by simp)
  | parses meta =>
    simp only [V1Reader.openDump, hm] at h
    cases ho : openIndexes dump.entries with
    | error e =>
      rw [ho] at h
      exact absurd h (by simp)
    | ok idxs =>
      rw [ho] at h
      have hr : ({ metadata := meta, indexes := idxs } : V1Reader) = r :=
        Except.ok.inj h
      rw [← hr]

theorem openIndexes_ok_mem {entries : List DirEntry} {l : List V1IndexReader}
    (h : openIndexes entries = .ok l) :
    ∀ c ∈ l, ∃ e ∈ entries, ∃ name, e.is_dir = true ∧
      e.file_name = some name ∧ V1IndexReader.new name e = .ok c := by
  induction entries generalizing l with
  | nil =>
    simp only [openIndexes] at h
    have hl : [] = l := Except.ok.inj h
    intro c hc
    rw [← hl] at hc
    exact absurd hc (by simp)
  | cons e rest ih =>
    by_cases hd : e.is_dir
    · simp only [openIndexes, if_pos hd] at h
      cases hn : e.file_name with
      | none =>
        simp only [hn] at h
        exact absurd h (by simp)
      | some name =>
        simp only [hn] at h
        cases hnew : V1IndexReader.new name e with
        | error err =>
          simp only [hnew] at h
          exact absurd h (by simp)
        | ok idx =>
          simp only [hnew] at h
          cases hrest : openIndexes rest with
          | error err =>
            simp only [hrest] at h
            exact absurd h (by simp)
          | ok more =>
            simp only [hrest] at h
            have hl : idx :: more = l := Except.ok.inj h
            intro c hc
            rw [← hl] at hc
            rcases List.mem_cons.mp hc with hc1 | hc2
            · exact ⟨e, List.mem_cons_self _ _, name, hd, hn, hc1 ▸ hnew⟩
            · obtain ⟨e', he', name', hd', hn', hnew'⟩ := ih hrest c hc2
              exact ⟨e', List.mem_cons_of_mem _ he', name', hd', hn', hnew'⟩
    · simp only [openIndexes, if_neg hd] at h
      intro c hc
      obtain ⟨e', he', name', hd', hn', hnew'⟩ := ih h c hc
      exact ⟨e', List.mem_cons_of_mem _ he', name', hd', hn', hnew'⟩

theorem openIndexes_ok_length {entries : List DirEntry} {l : List V1IndexReader}
    (h : openIndexes entries = .ok l) :
    l.length = (entries.filter (fun e => e.is_dir)).length := by
  induction entries generalizing l with
  | nil =>
    simp only [openIndexes] at h
    have hl : [] = l := Except.ok.inj h
    rw [← hl]
    rfl
  | cons e rest ih =>
    by_cases hd : e.is_dir
    · simp only [openIndexes, if_pos hd] at h
      cases hn : e.file_name with
      | none =>
        simp only [hn] at h
        exact absurd h (by simp)
      | some name =>
        simp only [hn] at h
        cases hnew : V1IndexReader.new name e with
        | error err =>
          simp only [hnew] at h
          exact absurd h (by simp)
        | ok idx =>
          simp only [hnew] at h
          cases hrest : openIndexes rest with
          | error err =>
            simp only [hrest] at h
            exact absurd h (by simp)
          | ok more =>
            simp only [hrest] at h
            have hl : idx :: more = l := Except.ok.inj h
            rw [← hl, List.filter_cons_of_pos (by simpa using hd)]
            simpa using ih hrest
    · simp only [openIndexes, if_neg hd] at h
      rw [List.filter_cons_of_neg (by simpa using hd)]
      exact ih h

/-- `openIndexes` builds its cursors positionally: the cursor at position
`i` of a successful result comes from the `i`-th index directory of the
listing (the `i`-th entry with `is_dir` set), via that entry's decoded
name. -/
theorem openIndexes_ok_getElem {entries : List DirEntry}
    {l : List V1IndexReader} (h : openIndexes entries = .ok l) :
    ∀ (i : Nat) (c : V1IndexReader), l[i]? = some c →
      ∃ e, (entries.filter (fun e => e.is_dir))[i]? = some e ∧
        ∃ name, e.file_name = some name ∧ V1IndexReader.new name e = .ok c := by
  induction entries generalizing l with
  | nil =>
    simp only [openIndexes] at h
    have hl : [] = l := Except.ok.inj h
    intro i c hc
    rw [← hl] at hc
    exact absurd hc (by simp)
  | cons e rest ih =>
    by_cases hd : e.is_dir
    · simp only [openIndexes, if_pos hd] at h
      cases hn : e.file_name with
      | none =>
        simp only [hn] at h
        exact absurd h (by simp)
      | some name =>
        simp only [hn] at h
        cases hnew : V1IndexReader.new name e with
        | error err =>
          simp only [hnew] at h
          exact absurd h (by simp)
        | ok idx =>
          simp only [hnew] at h
          cases hrest : openIndexes rest with
          | error err =>
            simp only [hrest] at h
            exact absurd h (by simp)
          | ok more =>
            simp only [hrest] at h
            have hl : idx :: more = l := Except.ok.inj h
            intro i c hc
            rw [← hl] at hc
            rw [List.filter_cons_of_pos (by simpa using hd)]
            cases i with
            | zero =>
              have hic : idx = c := by simpa using hc
              exact ⟨e, by simp, name, hn, hic ▸ hnew⟩
            | succ n =>
              have hc2 : more[n]? = some c := by simpa using hc
              obtain ⟨e', he', name', hn', hnew'⟩ := ih hrest n c hc2
              exact ⟨e', by simpa using he', name', hn', hnew'⟩
    · simp only [openIndexes, if_neg hd] at h
      intro i c hc
      obtain ⟨e', he', name', hn', hnew'⟩ := ih h i c hc
      refine ⟨e', ?_, name', hn', hnew'⟩
      rw [List.filter_cons_of_neg (by simpa using hd)]
      exact he'

/-- Advancing a cursor never changes its `name` field, so the fresh cursor
keeps the name decoded from its directory entry. -/
theorem freshCursor_name (name : String) (docs : List String) (sett : String)
    (upd : List TaskLine) : (freshCursor name docs sett upd).name = name := by
  cases upd with
  | nil => rfl
  | cons line rest =>
    cases line with
    | ok t => rfl
    | bad m => rfl

theorem new_ok_of_files {name : String} {e : DirEntry} {docs : List String}
    {sett : String} {upd : List TaskLine} (hd : e.documents = some docs)
    (hs : e.settings = some sett) (hu : e.updates = some upd) :
    V1IndexReader.new name e = .ok (freshCursor name docs sett upd) := by
  simp only [V1IndexReader.new, hd, hs, hu]
  rfl

theorem openIndexes_bad_name {entries : List DirEntry}
    (hfiles : ∀ e ∈ entries, e.is_dir = true →
      e.documents.isSome ∧ e.settings.isSome ∧ e.updates.isSome)
    (hbad : ∃ e ∈ entries, e.is_dir = true ∧ e.file_name = none) :
    openIndexes entries = .error Error.badIndexName := by
  induction entries with
  | nil =>
    obtain ⟨e, he, _⟩ := hbad
    exact absurd he (by simp)
  | cons e rest ih =>
    cases hd : e.is_dir with
    | false =>
      simp only [openIndexes, hd]
      apply ih
      · intro e' he' hd'
        exact hfiles e' (List.mem_cons_of_mem _ he') hd'
      · obtain ⟨e', he', hd', hn'⟩ := hbad
        rcases List.mem_cons.mp he' with heq | hmem
        · rw [heq, hd] at hd'
          exact absurd hd' (by simp)
        · exact ⟨e', hmem, hd', hn'⟩
    | true =>
      simp only [openIndexes, hd]
      cases hn : e.file_name with
      | none => rfl
      | some name =>
        obtain ⟨hdoc, hset, hupd⟩ := hfiles e (List.mem_cons_self _ _) hd
        obtain ⟨docs, hdocs⟩ := Option.isSome_iff_exists.mp hdoc
        obtain ⟨sett, hsetts⟩ := Option.isSome_iff_exists.mp hset
        obtain ⟨upd, hupds⟩ := Option.isSome_iff_exists.mp hupd
        have hrest : openIndexes rest = .error Error.badIndexName := by
          apply ih
          · intro e' he' hd'
            exact hfiles e' (List.mem_cons_of_mem _ he') hd'
          · obtain ⟨e', he', hd', hn'⟩ := hbad
            rcases List.mem_cons.mp he' with heq | hmem
            · rw [heq, hn] at hn'
              exact absurd hn' (by simp)
            · exact ⟨e', hmem, hd', hn'⟩
        simp only [new_ok_of_files hdocs hsetts hupds, hrest]
        simp

theorem pull_preserves_exhausted {r : V1Reader} {i : Nat} {c : V1IndexReader}
    (hg : r.indexes[i]? = some c) (hc : c.current_update = none) :
    r.next_update.2.indexes[i]? = some c := by
  cases hm : minByKeyFirst r.candidates with
  | none =>
    simp only [V1Reader.next_update, hm]
    exact hg
  | some p =>
    obtain ⟨idx, u⟩ := p
    have hne : idx ≠ i := by
      intro heq
      obtain ⟨c', _, hg', hv'⟩ := mem_candidatesFrom (minByKeyFirst_mem hm)
      rw [Nat.sub_zero, heq] at hg'
      have hcc : c' = c := Option.some.inj (hg'.symm.trans hg)
      rw [hcc, hc] at hv'
      exact Option.noConfusion hv'
    cases hgidx : r.indexes[idx]? with
    | none =>
      simp only [V1Reader.next_update, hm, hgidx]
      exact hg
    | some cidx =>
      simp only [V1Reader.next_update, hm, hgidx]
      rw [List.getElem?_set_ne hne]
      exact hg

theorem exhausted_cursor_untouched {r : V1Reader} {i : Nat} {c : V1IndexReader}
    (hg : r.indexes[i]? = some c) (hc : c.current_update = none) :
    ∀ n, (V1Reader.pulls n r).indexes[i]? = some c := by
  intro n
  induction n generalizing r with
  | zero => exact hg
  | succ k ih => exact ih (pull_preserves_exhausted hg hc)

theorem openDump_cursorWF {dump : Dump} {r : V1Reader}
    (hopen : V1Reader.openDump dump = .ok r)
    (hlogs : ∀ e ∈ dump.entries, ∀ l, e.updates = some l →
      sortedLe (logTasks l)) :
    ∀ c ∈ r.indexes, cursorWF c := by
  intro c hc
  obtain ⟨e, he, name, hd, hn, hnew⟩ :=
    openIndexes_ok_mem (openDump_ok_indexes hopen) c hc
  obtain ⟨docs, sett, upd, hdoc, hset, hupd, hcf⟩ := new_ok_shape hnew
  rw [hcf]
  exact new_cursorWF (hlogs e he upd hupd)

/-! ### Concrete dumps used as witnesses and counterexamples -/

def u10 : UpdateStatus := ⟨10, "movies first"⟩

def u30 : UpdateStatus := ⟨30, "movies second"⟩

def entryMovies : DirEntry :=
  { file_name := some "movies", is_dir := true,
    documents := some ["doc one", "doc two", "doc three"],
    settings := some "movies settings",
    updates := some [TaskLine.ok u10, TaskLine.ok u30] }

def dumpMovies : Dump :=
  { metadata := .parses "meta v1", entries := [entryMovies] }

def cursorMovies : V1IndexReader :=
  { name := "movies", documents := ["doc one", "doc two", "doc three"],
    settings := "movies settings", updates := [TaskLine.ok u30],
    current_update := some u10 }

def readerMovies : V1Reader :=
  { metadata := "meta v1", indexes := [cursorMovies] }

def ua5 : UpdateStatus := ⟨5, "a five"⟩

def ub5 : UpdateStatus := ⟨5, "b five"⟩

def cursorA : V1IndexReader :=
  { name := "a", documents := [], settings := "sa", updates := [],
    current_update := some ua5 }

def cursorA2 : V1IndexReader :=
  { name := "a", documents := [], settings := "sa", updates := [],
    current_update := none }

def cursorB : V1IndexReader :=
  { name := "b", documents := [], settings := "sb", updates := [],
    current_update := some ub5 }

def readerTie : V1Reader :=
  { metadata := "m", indexes := [cursorA, cursorB] }

def cursorExhausted : V1IndexReader :=
  { name := "e", documents := [], settings := "se", updates := [],
    current_update := none }

def readerExhausted : V1Reader :=
  { metadata := "m", indexes := [cursorExhausted] }

def entryEmptyA : DirEntry :=
  { file_name := some "emptya", is_dir := true, documents := some [],
    settings := some "sa", updates := some [] }

def entryEmptyB : DirEntry :=
  { file_name := some "emptyb", is_dir := true, documents := some [],
    settings := some "sb", updates := some [] }

def entryMetaFile : DirEntry :=
  { file_name := some "metadata json file", is_dir := false,
    documents := none, settings := none, updates := none }

def dumpEmpty : Dump :=
  { metadata := .parses "m",
    entries := [entryMetaFile, entryEmptyA, entryEmptyB] }

def cursorEmptyA : V1IndexReader :=
  { name := "emptya", documents := [], settings := "sa", updates := [],
    current_update := none }

def cursorEmptyB : V1IndexReader :=
  { name := "emptyb", documents := [], settings := "sb", updates := [],
    current_update := none }

def readerEmpty : V1Reader :=
  { metadata := "m", indexes := [cursorEmptyA, cursorEmptyB] }

def entryBadName : DirEntry :=
  { file_name := none, is_dir := true, documents := some [],
    settings := some "s", updates := some [] }

def dumpBadName : Dump :=
  { metadata := .parses "m", entries := [entryMovies, entryBadName] }

/-! ## C1 -/

/-- C1: for every dump whose per-index task logs are each individually
sorted ascending by `enqueued_at`, the merged stream produced by `tasks()`
is globally non-decreasing — every yielded task's `enqueued_at` is at least
that of the task yielded immediately before it. -/
theorem tasks_enqueued_at_monotone (dump : Dump) (r : V1Reader)
    (hopen : V1Reader.openDump dump = .ok r)
    (hlogs : ∀ e ∈ dump.entries, ∀ l, e.updates = some l →
      sortedLe (logTasks l)) :
    List.Chain' (fun a b => a.1.enqueued_at ≤ b.1.enqueued_at)
      r.tasksList.1 := by
  have hwf := openDump_cursorWF hopen hlogs
  have hpair := tasksAux_pairwise (r.measure + 1) r hwf
  rw [tasksList_eq]
  have hp2 : List.Pairwise
      (fun a b : UpdateStatus × Option Unit => a.1.enqueued_at ≤ b.1.enqueued_at)
      ((tasksAux (r.measure + 1) r).1.map (fun t => (t, (none : Option Unit)))) := by
    rw [List.pairwise_map]
    exact hpair
  exact hp2.chain'

/-- Witness for C1: the concrete one-index dump with tasks at 10 and 30. -/
theorem tasks_enqueued_at_monotone_witness :
    List.Chain' (fun a b => a.1.enqueued_at ≤ b.1.enqueued_at)
      (V1Reader.tasksList readerMovies).1 := by
  refine tasks_enqueued_at_monotone dumpMovies readerMovies rfl ?_
  intro e he l hl
  have he2 : e = entryMovies := by simpa [dumpMovies] using he
  rw [he2] at hl
  have hl2 : [TaskLine.ok u10, TaskLine.ok u30] = l := Option.some.inj hl
  rw [← hl2]
  decide

/-! ## C2 -/

/-- C2: on a pull where two or more cursors' buffered tasks tie for the
numerically smallest `enqueued_at`, the cursor at the lowest
discovery-order position (here: position `pre.length`, every earlier
cursor being strictly larger) is the one advanced, and its buffered task
is the one yielded. -/
theorem tie_selects_lowest_position (r : V1Reader)
    (pre post : List V1IndexReader) (c cj : V1IndexReader)
    (u v : UpdateStatus)
    (hsplit : r.indexes = pre ++ c :: post)
    (hcur : c.current_update = some u)
    (hgood : c.updates = [] ∨ ∃ t rest, c.updates = TaskLine.ok t :: rest)
    (htie : cj ∈ post ∧ cj.current_update = some v ∧
      v.enqueued_at = u.enqueued_at)
    (hpre : ∀ c' ∈ pre, ∀ w, c'.current_update = some w →
      u.enqueued_at < w.enqueued_at)
    (hpost : ∀ c' ∈ post, ∀ w, c'.current_update = some w →
      u.enqueued_at ≤ w.enqueued_at) :
    r.next_update =
      (.ok (some u), { r with indexes := pre ++ c.next_update.2 :: post }) := by
  have h := next_update_split hsplit hcur hpre hpost
  have hfst : c.next_update.1 = .ok (some u) := by
    rcases hgood with hnil | ⟨t, rest, hok⟩
    · rw [index_next_update_nil hnil, hcur]
    · rw [index_next_update_ok hok, hcur]
  rw [hfst] at h
  exact h

/-- Witness for C2: cursors "a" and "b" both buffer tasks with
`enqueued_at = 5`; the merge yields a's task and advances only a. -/
theorem tie_selects_lowest_position_witness :
    readerTie.next_update =
      (.ok (some ua5), { metadata := "m", indexes := [cursorA2, cursorB] }) := by
  refine tie_selects_lowest_position readerTie [] [cursorB] cursorA cursorB
    ua5 ub5 rfl rfl (Or.inl rfl) ⟨List.mem_cons_self _ _, rfl, rfl⟩ ?_ ?_
  · intro c' hc'
    exact absurd hc' (by simp)
  · intro c' hc' w hw
    have hcb : c' = cursorB := by simpa using hc'
    rw [hcb] at hw
    have hwb : ub5 = w := Option.some.inj hw
    rw [← hwb]
    decide

/-! ## C10 -/

/-- C10: a pull of the merged stream touches only the selected cursor —
every other position of `indexes` is left unchanged — and a pull made when
every cursor is exhausted changes no state at all (it returns `Ok(None)`
and the reader verbatim). -/
theorem next_update_frame (r : V1Reader) :
    ((∀ c ∈ r.indexes, c.current_update = none) →
      r.next_update = (.ok none, r)) ∧
    ∀ i u, minByKeyFirst r.candidates = some (i, u) →
      ∀ j, j ≠ i → r.next_update.2.indexes[j]? = r.indexes[j]? := by
  constructor
  · intro hall
    have hc : r.candidates = [] := candidatesFrom_eq_nil hall
    simp only [V1Reader.next_update, hc, minByKeyFirst]
  · intro i u hm j hj
    cases hg : r.indexes[i]? with
    | none => simp only [V1Reader.next_update, hm, hg]
    | some c =>
      simp only [V1Reader.next_update, hm, hg]
      exact List.getElem?_set_ne (Ne.symm hj)

/-- Witness for C10: the all-exhausted reader is returned verbatim, and on
the two-cursor tie reader a pull leaves position 1 untouched. -/
theorem next_update_frame_witness :
    readerExhausted.next_update = (.ok none, readerExhausted) ∧
      readerTie.next_update.2.indexes[1]? = readerTie.indexes[1]? := by
  exact ⟨(next_update_frame readerExhausted).1 (by decide),
    (next_update_frame readerTie).2 0 ua5 rfl 1 (by decide)⟩

/-! ## C8 -/

/-- C8: when every index directory's `updates.jsonl` is empty, `tasks()`
yields no element (and no error), while `indexes()` still yields exactly
one reader per discovered index directory. -/
theorem empty_logs_empty_tasks (dump : Dump) (r : V1Reader)
    (hopen : V1Reader.openDump dump = .ok r)
    (hempty : ∀ e ∈ dump.entries, e.is_dir = true → e.updates = some []) :
    r.tasksList = ([], none) ∧
      r.indexesList.length =
        (dump.entries.filter (fun e => e.is_dir)).length := by
  have hoi := openDump_ok_indexes hopen
  have hnone : ∀ c ∈ r.indexes, c.current_update = none := by
    intro c hc
    obtain ⟨e, he, name, hd, hn, hnew⟩ := openIndexes_ok_mem hoi c hc
    obtain ⟨docs, sett, upd, hdoc, hset, hupd, hcf⟩ := new_ok_shape hnew
    have hupd0 : upd = [] := by
      have hsome := hempty e he hd
      rw [hupd] at hsome
      exact Option.some.inj hsome
    rw [hcf, new_current_update, hupd0]
    rfl
  constructor
  · have hc : r.candidates = [] := candidatesFrom_eq_nil hnone
    have hnu : r.next_update = (.ok none, r) := by
      simp only [V1Reader.next_update, hc, minByKeyFirst]
    rw [tasksList_eq, tasksAux_succ_ok_none hnu]
    rfl
  · exact openIndexes_ok_length hoi

/-- Witness for C8: a dump with two empty-log indexes plus a stray
non-directory entry. -/
theorem empty_logs_empty_tasks_witness :
    readerEmpty.tasksList = ([], none) ∧
      readerEmpty.indexesList.length =
        (dumpEmpty.entries.filter (fun e => e.is_dir)).length := by
  exact empty_logs_empty_tasks dumpEmpty readerEmpty rfl (by decide)

/-! ## C4 -/

/-- C4: if some subdirectory of the dump root has a non-decodable name,
`open()` fails with `BadIndexName` and constructs no reader (stated for
dumps where nothing fails earlier: the metadata parses and every index
directory has its three files, so the scan reaches the bad name). -/
theorem open_bad_index_name (dump : Dump)
    (hmeta : ∃ m, dump.metadata = MetaFile.parses m)
    (hfiles : ∀ e ∈ dump.entries, e.is_dir = true →
      e.documents.isSome ∧ e.settings.isSome ∧ e.updates.isSome)
    (hbad : ∃ e ∈ dump.entries, e.is_dir = true ∧ e.file_name = none) :
    V1Reader.openDump dump = .error Error.badIndexName := by
  obtain ⟨m, hm⟩ := hmeta
  simp only [V1Reader.openDump, hm, openIndexes_bad_name hfiles hbad]

/-- Witness for C4: a dump whose second index directory has a
non-decodable name. -/
theorem open_bad_index_name_witness :
    V1Reader.openDump dumpBadName = .error Error.badIndexName := by
  exact open_bad_index_name dumpBadName ⟨"m", rfl⟩ (by decide) (by decide)

/-! ## C6 -/

def entryOops : DirEntry :=
  { file_name := some "movies", is_dir := true, documents := some [],
    settings := some "s", updates := some [TaskLine.bad "oops"] }

def dumpOops : Dump :=
  { metadata := .parses "m", entries := [entryOops] }

def cursorOops : V1IndexReader :=
  { name := "movies", documents := [], settings := "s", updates := [],
    current_update := none }

def readerOops : V1Reader :=
  { metadata := "m", indexes := [cursorOops] }

/-- C6 counterexample: `open()` succeeds on a dump whose single index has a
non-empty `updates.jsonl` (one malformed line), yet the resulting cursor
holds no buffered task — it is exhausted although its log is non-empty,
refuting "exhausted if and only if `updates.jsonl` is empty". -/
theorem cursor_initial_buffer_cex :
    V1Reader.openDump dumpOops = .ok readerOops ∧
      entryOops.updates = some [TaskLine.bad "oops"] ∧
      ([] : List TaskLine) ≠ [TaskLine.bad "oops"] ∧
      cursorOops.current_update = none := by
  refine ⟨rfl, rfl, ?_, rfl⟩
  decide

/-- C6 (amended): immediately after `open()` succeeds, the cursor at each
discovery position `i` was built from the `i`-th index directory of the
listing — it carries that entry's decoded name — and it buffers the first
task of that entry's own log exactly when the log is non-empty and its
first line parses as a task (`head? >>= parse`); it is exhausted when its
own log is empty or that log's first line is malformed. -/
theorem cursor_initial_buffer (dump : Dump) (r : V1Reader)
    (hopen : V1Reader.openDump dump = .ok r) :
    ∀ (i : Nat) (c : V1IndexReader), r.indexes[i]? = some c →
      ∃ e, (dump.entries.filter (fun e => e.is_dir))[i]? = some e ∧
        ∃ name upd, e.file_name = some name ∧ c.name = name ∧
          e.updates = some upd ∧
          c.current_update = upd.head?.bind TaskLine.task? := by
  intro i c hc
  obtain ⟨e, he, name, hn, hnew⟩ :=
    openIndexes_ok_getElem (openDump_ok_indexes hopen) i c hc
  obtain ⟨docs, sett, upd, hdoc, hset, hupd, hcf⟩ := new_ok_shape hnew
  refine ⟨e, he, name, upd, hn, ?_, hupd, ?_⟩
  · rw [hcf]
    exact freshCursor_name name docs sett upd
  · rw [hcf, new_current_update]

/-- Witness for amended C6 at the concrete two-task dump: the position-0
cursor comes from the position-0 index directory "movies" and buffers the
head-parse of that entry's own log. -/
theorem cursor_initial_buffer_witness :
    ∃ e, (dumpMovies.entries.filter (fun e => e.is_dir))[0]? = some e ∧
      ∃ name upd, e.file_name = some name ∧ cursorMovies.name = name ∧
        e.updates = some upd ∧
        cursorMovies.current_update = upd.head?.bind TaskLine.task? := by
  exact cursor_initial_buffer dumpMovies readerMovies rfl 0 cursorMovies rfl

/-! ## C9 -/

def ugood : UpdateStatus := ⟨7, "good seven"⟩

def ulost : UpdateStatus := ⟨1, "broken one"⟩

def entryBroken : DirEntry :=
  { file_name := some "broken", is_dir := true, documents := some [],
    settings := some "sb",
    updates := some [TaskLine.bad "oops first", TaskLine.ok ulost] }

def entryGood : DirEntry :=
  { file_name := some "good", is_dir := true, documents := some [],
    settings := some "sg", updates := some [TaskLine.ok ugood] }

def dumpSwallow : Dump :=
  { metadata := .parses "m", entries := [entryBroken, entryGood] }

def cursorBroken : V1IndexReader :=
  { name := "broken", documents := [], settings := "sb",
    updates := [TaskLine.ok ulost], current_update := none }

def cursorGood : V1IndexReader :=
  { name := "good", documents := [], settings := "sg", updates := [],
    current_update := some ugood }

def readerSwallow : V1Reader :=
  { metadata := "m", indexes := [cursorBroken, cursorGood] }

/-- C9: a parse failure on the first line of an index's `updates.jsonl` is
discarded during construction (line 45 drops the `Result`): the
constructor still succeeds and the cursor starts with no buffered task; an
exhausted cursor is never selected, so any number of merge pulls leaves it
untouched; concretely, `open()` succeeds on a dump whose first index has a
malformed first line, and `tasks()` finishes without error yielding only
the other index's tasks — the broken index's tasks are silently absent. -/
theorem first_line_error_swallowed :
    (∀ (name : String) (e : DirEntry) (docs : List String) (sett : String)
        (m : String) (rest : List TaskLine),
      e.documents = some docs → e.settings = some sett →
      e.updates = some (TaskLine.bad m :: rest) →
      ∃ c, V1IndexReader.new name e = .ok c ∧ c.current_update = none) ∧
    (∀ (r : V1Reader) (i : Nat) (c : V1IndexReader),
      r.indexes[i]? = some c → c.current_update = none →
      ∀ n, (V1Reader.pulls n r).indexes[i]? = some c) ∧
    V1Reader.openDump dumpSwallow = .ok readerSwallow ∧
    V1Reader.tasksList readerSwallow = ([(ugood, none)], none) := by
  refine ⟨?_, ?_, rfl, rfl⟩
  · intro name e docs sett m rest hd hs hu
    exact ⟨freshCursor name docs sett (TaskLine.bad m :: rest),
      new_ok_of_files hd hs hu, rfl⟩
  · intro r i c hg hc n
    exact exhausted_cursor_untouched hg hc n

/-- Witness for C9: the swallowed constructor at the concrete broken entry,
and five pulls leaving the exhausted cursor in place. -/
theorem first_line_error_swallowed_witness :
    (∃ c, V1IndexReader.new "broken" entryBroken = .ok c ∧
      c.current_update = none) ∧
      (V1Reader.pulls 5 readerSwallow).indexes[0]? = some cursorBroken := by
  exact ⟨first_line_error_swallowed.1 "broken" entryBroken [] "sb"
      "oops first" [TaskLine.ok ulost] rfl rfl rfl,
    first_line_error_swallowed.2.1 readerSwallow 0 cursorBroken rfl rfl 5⟩

/-! ## C5 -/

def alpha1 : UpdateStatus := ⟨5, "alpha one"⟩

def beta1 : UpdateStatus := ⟨1, "beta one"⟩

def beta2 : UpdateStatus := ⟨2, "beta two"⟩

def entryAlpha : DirEntry :=
  { file_name := some "alpha", is_dir := true, documents := some [],
    settings := some "s",
    updates := some [TaskLine.ok alpha1, TaskLine.bad "boom"] }

def entryBeta : DirEntry :=
  { file_name := some "beta", is_dir := true, documents := some [],
    settings := some "s",
    updates := some [TaskLine.ok beta1, TaskLine.ok beta2,
      TaskLine.bad "boom"] }

def dumpAlpha : Dump :=
  { metadata := .parses "m", entries := [entryAlpha] }

def dumpBeta : Dump :=
  { metadata := .parses "m", entries := [entryBeta] }

def cursorAlpha : V1IndexReader :=
  { name := "alpha", documents := [], settings := "s",
    updates := [TaskLine.bad "boom"], current_update := some alpha1 }

def cursorBeta : V1IndexReader :=
  { name := "beta", documents := [], settings := "s",
    updates := [TaskLine.ok beta2, TaskLine.bad "boom"],
    current_update := some beta1 }

def readerAlpha : V1Reader :=
  { metadata := "m", indexes := [cursorAlpha] }

def readerBeta : V1Reader :=
  { metadata := "m", indexes := [cursorBeta] }

/-- C5 counterexample: the malformed line sits in index "alpha" at 0-based
line 1 in one dump, and in index "beta" at 0-based line 2 in the other,
yet consuming `tasks()` surfaces the very same error value in both — the
error therefore identifies neither the offending index's name nor the line
number. -/
theorem parse_error_identifies_nothing :
    V1Reader.openDump dumpAlpha = .ok readerAlpha ∧
      V1Reader.openDump dumpBeta = .ok readerBeta ∧
      entryAlpha.file_name ≠ entryBeta.file_name ∧
      (entryAlpha.updates.getD [])[1]? = some (TaskLine.bad "boom") ∧
      (entryBeta.updates.getD [])[2]? = some (TaskLine.bad "boom") ∧
      (V1Reader.tasksList readerAlpha).2 = some (Error.serdeJson "boom") ∧
      (V1Reader.tasksList readerBeta).2 = some (Error.serdeJson "boom") ∧
      (V1Reader.tasksList readerAlpha).2 = (V1Reader.tasksList readerBeta).2 := by
  refine ⟨rfl, rfl, ?_, rfl, rfl, rfl, rfl, rfl⟩
  decide

/-- C5 (amended): when a merge pull reads a malformed task line (a
malformed line reached during stream consumption; a malformed first line
is instead swallowed at construction, see C9), the pull fails with the
converted serde error of that single line — a value built from the line's
text alone, carrying neither the index name nor the file line number. -/
theorem parse_error_carries_only_line_message (r : V1Reader)
    (pre post : List V1IndexReader) (c : V1IndexReader) (u : UpdateStatus)
    (m : String) (rest : List TaskLine)
    (hsplit : r.indexes = pre ++ c :: post)
    (hcur : c.current_update = some u)
    (hbad : c.updates = TaskLine.bad m :: rest)
    (hpre : ∀ c' ∈ pre, ∀ w, c'.current_update = some w →
      u.enqueued_at < w.enqueued_at)
    (hpost : ∀ c' ∈ post, ∀ w, c'.current_update = some w →
      u.enqueued_at ≤ w.enqueued_at) :
    r.next_update =
      (.error (Error.serdeJson m),
        { r with indexes := pre ++ { c with updates := rest } :: post }) := by
  have h := next_update_split hsplit hcur hpre hpost
  rw [index_next_update_bad hbad] at h
  exact h

/-- Witness for amended C5: the pull on `readerAlpha` that reads the
malformed line fails with exactly the serde message of that line. -/
theorem parse_error_carries_only_line_message_witness :
    readerAlpha.next_update =
      (.error (Error.serdeJson "boom"),
        { metadata := "m",
          indexes := [{ cursorAlpha with updates := [] }] }) := by
  refine parse_error_carries_only_line_message readerAlpha [] [] cursorAlpha
    alpha1 "boom" [] rfl rfl rfl ?_ ?_
  · intro c' hc'
    exact absurd hc' (by simp)
  · intro c' hc'
    exact absurd hc' (by simp)

/-! ## C3 and C7: the per-index accessors are unimplemented -/

/-- C3 (code finding): `IndexReader::documents` for `&V1IndexReader`
(lines 121-123) is `todo!()` — a call on the concrete "movies" index
panics before reading `documents.jsonl` and never produces a document
sequence, let alone one value per source line. -/
theorem documents_todo_never_returns :
    V1IndexReader.documentsResult cursorMovies = none := rfl

/-- C7 (code finding): `IndexReader::settings` for `&V1IndexReader`
(lines 125-127) is `todo!()` — a call on the concrete "movies" index
panics and returns no settings value; repeated calls return nothing
identical because they return nothing at all. -/
theorem settings_todo_never_returns :
    V1IndexReader.settingsResult cursorMovies = none := rfl

end DumpV1
